import Mathlib

/-!
Verification of the core of a tweet sentiment-analysis program.

The program consists of a hand-rolled string class (`DSString`) and a
frequency-based sentiment classifier (`SentimentClassifier`).  We embed the
relevant functions shallowly: a `DSString` is modelled as its logical byte
content, a `List Nat` of the `length` bytes stored before the null terminator
(bytes are modelled unsigned, `0` is the terminator and never part of the
content of a string built by the class API).  C++ `int` parameters are
modelled as `Int`; `std::map` is modelled as an association list; the file
I/O driver loops are modelled per record.
-/

set_option autoImplicit false

/-- Reading `data[i]` at the head of a (suffix of a) C string: an exhausted
list stands for the null terminator, byte `0`. -/
def headByte : List Nat → Nat
  | [] => 0
  | c :: _ => c

/-- `stringCompare` from `DSString.cpp`: walk both strings while both current
bytes are nonzero and equal; on exit return the difference of the current
bytes (the terminator reads as `0`). -/
def stringCompare : List Nat → List Nat → Int
  | a :: as, b :: bs =>
    if a ≠ 0 ∧ b ≠ 0 then
      if a = b then stringCompare as bs else (a : Int) - (b : Int)
    else (a : Int) - (b : Int)
  | s, t => (headByte s : Int) - (headByte t : Int)

/-- A `DSString` is its logical byte content (the `length` bytes before the
terminator). -/
structure DSString where
  data : List Nat
deriving DecidableEq, Repr

/-- A `DSString` built through the class API: no interior null byte, and every
byte fits in a `char`. -/
def DSString.wf (s : DSString) : Prop := 0 ∉ s.data ∧ ∀ c ∈ s.data, c < 256

instance (s : DSString) : Decidable s.wf := by
  unfold DSString.wf; infer_instance

/-- `DSString::size`. -/
def DSString.size (s : DSString) : Int := s.data.length

/-- `DSString::operator==`: equal lengths and equal bytes. -/
def DSString.beq (s t : DSString) : Bool :=
  s.data.length == t.data.length && s.data == t.data

/-- `DSString::operator<`. -/
def DSString.lt (s t : DSString) : Bool := stringCompare s.data t.data < 0

/-- `DSString::operator>`. -/
def DSString.gt (s t : DSString) : Bool := stringCompare s.data t.data > 0

/-- `DSString::substring(start, numChars)` from `DSString.cpp`. -/
def DSString.substring (s : DSString) (start numChars : Int) : DSString :=
  if start < 0 ∨ start ≥ s.size ∨ numChars ≤ 0 then ⟨[]⟩
  else
    let n := if start + numChars > s.size then s.size - start else numChars
    ⟨(s.data.drop start.toNat).take n.toNat⟩

/-- One byte of `DSString::toLowerCase`: ASCII `A`–`Z` (65–90) maps to
lowercase by adding 32; every other byte passes through. -/
def lowerByte (c : Nat) : Nat := if 65 ≤ c ∧ c ≤ 90 then c + 32 else c

/-- `DSString::toLowerCase`. -/
def DSString.toLowerCase (s : DSString) : DSString := ⟨s.data.map lowerByte⟩

/-- `DSString::operator+` (concatenation). -/
def DSString.concat (s t : DSString) : DSString := ⟨s.data ++ t.data⟩

/-- Byte content of an ASCII string literal, for concrete test inputs. -/
def bytesOf (s : String) : List Nat := s.data.map Char.toNat

/-- The delimiter bytes of `SentimentClassifier::tokenizeTweet`: space and the
punctuation run given in the source
(the bytes of " ,.!?;:\"'()[]\x7b\x7d@#$%^&*-_=+<>/\\|~" plus backtick). -/
def delimiters : List Nat :=
  [32, 44, 46, 33, 63, 59, 58, 34, 39, 40, 41, 91, 93, 123, 125, 64, 35, 36,
   37, 94, 38, 42, 45, 95, 61, 43, 60, 62, 47, 92, 124, 126, 96]

/-- The inner scan of `tokenizeTweet` over the delimiter array. -/
def isDelimiter (c : Nat) : Bool := c ∈ delimiters

/-- The character loop of `SentimentClassifier::tokenizeTweet`, with the
current word and the token list as explicit state; the final clause is the
trailing `if (currentWord.size() > 0)` push. -/
def tokenizeLoop : List Nat → List Nat → List (List Nat) → List (List Nat)
  | [], cur, toks => if cur.length > 0 then toks ++ [cur] else toks
  | c :: rest, cur, toks =>
    if isDelimiter c then
      if cur.length > 0 then tokenizeLoop rest [] (toks ++ [cur])
      else tokenizeLoop rest cur toks
    else tokenizeLoop rest (cur ++ [c]) toks

/-- `SentimentClassifier::tokenizeTweet`: lowercase the whole text, then run
the delimiter-splitting loop. -/
def tokenizeTweet (text : List Nat) : List (List Nat) :=
  tokenizeLoop (text.map lowerByte) [] []

/-- The character loop of `SentimentClassifier::parseCSVLine`, with the field
list, current field and in-quotes flag as explicit state; byte 34 is the
double quote, byte 44 the comma. -/
def parseCSVLoop : List Nat → List (List Nat) → List Nat → Bool → List (List Nat)
  | [], fields, cur, _ => fields ++ [cur]
  | c :: rest, fields, cur, inQ =>
    if c = 34 then parseCSVLoop rest fields cur (!inQ)
    else if c = 44 ∧ inQ = false then parseCSVLoop rest (fields ++ [cur]) [] inQ
    else parseCSVLoop rest fields (cur ++ [c]) inQ

/-- `SentimentClassifier::parseCSVLine`; the `hasSentiment` flag is a
parameter of the source function but is never consulted by its body. -/
def parseCSVLine (line : List Nat) (hasSentiment : Bool) : List (List Nat) :=
  parseCSVLoop line [] [] false

/-- `wordSentimentCounts`: a map from token to
(positive count, negative count), modelled as an association list. -/
abbrev WordStats := List (List Nat × (Nat × Nat))

/-- `wordSentimentCounts.find(token)`. -/
def wsFind : WordStats → List Nat → Option (Nat × Nat)
  | [], _ => none
  | (k, v) :: rest, t => if k = t then some v else wsFind rest t

/-- `SentimentClassifier::calculateSentimentScore`: add
(positive − negative) for every token found in the map. -/
def calculateSentimentScore (ws : WordStats) (tokens : List (List Nat)) : Int :=
  tokens.foldl (fun score token =>
    match wsFind ws token with
    | some p => score + ((p.1 : Int) - (p.2 : Int))
    | none => score) 0

/-- `wordSentimentCounts[token]` followed by one increment of the positive
(if `pos`) or negative count; `operator[]` default-constructs the entry at
(0,0) when the key is absent. -/
def wsBump (pos : Bool) : WordStats → List Nat → WordStats
  | [], t => [(t, if pos then (1, 0) else (0, 1))]
  | (k, v) :: rest, t =>
    if k = t then (k, if pos then (v.1 + 1, v.2) else (v.1, v.2 + 1)) :: rest
    else (k, v) :: wsBump pos rest t

/-- One iteration of the token loop in `SentimentClassifier::train`: tokens of
size ≤ 1 are skipped, others bump their count on the side given by the
record's sentiment. -/
def trainTokenStep (pos : Bool) (ws : WordStats) (t : List Nat) : WordStats :=
  if t.length ≤ 1 then ws else wsBump pos ws t

/-- Label derivation in `train` (and `evaluatePredictions`):
`sentimentStr[0] == '4'`; an empty field reads its terminator byte 0. -/
def labelIsPositive (field : List Nat) : Bool := headByte field == 52

/-- Processing of one parsed training record by `SentimentClassifier::train`:
records with fewer than 6 fields are skipped, otherwise every token of the
text field (index 5) is folded through `trainTokenStep` with the sentiment
derived from field 0. -/
def processTrainRecord (ws : WordStats) (fields : List (List Nat)) : WordStats :=
  if fields.length < 6 then ws
  else
    (tokenizeTweet (fields.getD 5 [])).foldl
      (trainTokenStep (labelIsPositive (fields.getD 0 []))) ws

/-- The prediction rule in `SentimentClassifier::predict`:
`(score > 0) ? 4 : 0`. -/
def predictedSentiment (score : Int) : Nat := if score > 0 then 4 else 0

/-- Processing of one test line by `SentimentClassifier::predict`: parse,
skip lines with fewer than 5 fields, tokenize field 4, and produce the
(tweetID, label) pair that is stored in `predictions` and written to the
output file. -/
def predictRecord (ws : WordStats) (line : List Nat) : Option (List Nat × Nat) :=
  let fields := parseCSVLine line false
  if fields.length < 5 then none
  else
    some (fields.getD 0 [],
      predictedSentiment (calculateSentimentScore ws (tokenizeTweet (fields.getD 4 []))))

/-- `predictions`: tweet ID to predicted label, as an association list. -/
abbrev PredictionTable := List (List Nat × Nat)

/-- `predictions.find(tweetID)`. -/
def ptFind : PredictionTable → List Nat → Option Nat
  | [], _ => none
  | (k, v) :: rest, t => if k = t then some v else ptFind rest t

/-- The accumulator of `SentimentClassifier::evaluatePredictions`:
`correctPredictions`, `totalPredictions` and the `misclassifications`
vector. -/
structure EvalState where
  correct : Nat
  total : Nat
  mis : List (Nat × Nat × List Nat)
deriving DecidableEq, Repr

/-- One line of the ground-truth loop in `evaluatePredictions`: skip lines
with fewer than 2 fields, derive the actual label from field 0, look the ID
(field 1) up in the prediction table, and count / record accordingly; IDs not
in the table leave the state unchanged. -/
def evalStep (preds : PredictionTable) (st : EvalState) (line : List Nat) : EvalState :=
  let fields := parseCSVLine line false
  if fields.length < 2 then st
  else
    let tweetID := fields.getD 1 []
    let actual : Nat := if headByte (fields.getD 0 []) = 52 then 4 else 0
    match ptFind preds tweetID with
    | none => st
    | some p =>
      if p = actual then ⟨st.correct + 1, st.total + 1, st.mis⟩
      else ⟨st.correct, st.total + 1, st.mis ++ [(p, actual, tweetID)]⟩

/-- The ground-truth loop of `SentimentClassifier::evaluatePredictions` over
the data lines of the ground-truth file. -/
def evaluatePredictions (preds : PredictionTable) (lines : List (List Nat)) : EvalState :=
  lines.foldl (evalStep preds) ⟨0, 0, []⟩

/-- The accuracy computed at the end of `evaluatePredictions`: 0.0 when no
prediction matched, `correct / total` otherwise. -/
def accuracy (st : EvalState) : ℚ :=
  if st.total > 0 then (st.correct : ℚ) / (st.total : ℚ) else 0

/-- `evaluatePredictions` prints its warning exactly when
`totalPredictions` is 0. -/
def evalWarned (st : EvalState) : Bool := st.total == 0

/-- The misclassification record that one ground-truth line contributes, if
any: used to state that the `misclassifications` vector holds exactly the
mismatched matched records in encounter order. -/
def misOf (preds : PredictionTable) (line : List Nat) : Option (Nat × Nat × List Nat) :=
  let fields := parseCSVLine line false
  if fields.length < 2 then none
  else
    let tweetID := fields.getD 1 []
    let actual : Nat := if headByte (fields.getD 0 []) = 52 then 4 else 0
    match ptFind preds tweetID with
    | none => none
    | some p => if p = actual then none else some (p, actual, tweetID)

/-!  A small heap model for the ownership claims about the copy constructor
and copy assignment: the heap is the list of allocated character buffers,
a `DSString` object's `data` pointer is an index into it, and `new` appends
a fresh buffer. -/

/-- The allocated buffers. -/
abbrev Heap := List (List Nat)

/-- Dereference a buffer. -/
def readBuf (h : Heap) (r : Nat) : List Nat := h.getD r []

/-- `str[i] = v` through the unchecked `DSString::operator[]`, for an
in-bounds index: overwrite byte `i` of buffer `r`. -/
def writeByte (h : Heap) (r i v : Nat) : Heap :=
  h.set r ((h.getD r []).set i v)

/-- `DSString::DSString(const DSString&)`: allocate a fresh buffer, copy the
source bytes into it, and point the new object at it. -/
def copyConstruct (h : Heap) (src : Nat) : Heap × Nat :=
  (h ++ [readBuf h src], h.length)

/-- `DSString::operator=`: on self-assignment do nothing; otherwise release
the target's buffer and give the target a fresh copy of the source bytes
(modelled in place at the target's slot, which the source never aliases). -/
def assignFrom (h : Heap) (dst src : Nat) : Heap :=
  if dst = src then h else h.set dst (readBuf h src)

/-- `DSString::operator==` between two live objects, under the class
invariant that a buffer holds exactly `length` bytes. -/
def dsEqHeap (h : Heap) (a b : Nat) : Bool := readBuf h a == readBuf h b

/-- The value a single token contributes to the sentiment score. -/
def tokenScore (ws : WordStats) (t : List Nat) : Int :=
  match wsFind ws t with
  | some p => (p.1 : Int) - (p.2 : Int)
  | none => 0

/-- Byte-wise lexicographic strict order on byte sequences, written from the
spec's words: compare position by position; at the first difference the
smaller byte decides; a string that exhausts first with all compared bytes
equal (a proper prefix) is smaller. -/
def lexLt : List Nat → List Nat → Bool
  | [], [] => false
  | [], _ :: _ => true
  | _ :: _, [] => false
  | a :: as, b :: bs => if a < b then true else if a = b then lexLt as bs else false

/-- Maximal non-delimiter runs of a byte sequence, written from the spec's
words: skip delimiters; at a non-delimiter byte, the maximal run starting
there is one token and scanning resumes after it (so a run ended by
end-of-input is also emitted, and no token is empty). -/
def specTokens : List Nat → List (List Nat)
  | [] => []
  | c :: rest =>
    if isDelimiter c then specTokens rest
    else (c :: rest.takeWhile (fun b => !isDelimiter b)) ::
      specTokens (rest.dropWhile (fun b => !isDelimiter b))
termination_by l => l.length
decreasing_by
  all_goals simp_wf
  all_goals
    (first
      | omega
      | (rename_i t h
         have hh := (List.dropWhile_sublist (l := t) (fun b => !isDelimiter b)).length_le
         omega))

/-- The pair stored for a token after one `counts.first++` / `counts.second++`
through `operator[]` (which default-constructs an absent entry at (0,0)). -/
def bumpPair (pos : Bool) (o : Option (Nat × Nat)) : Nat × Nat :=
  match o with
  | some v => if pos then (v.1 + 1, v.2) else (v.1, v.2 + 1)
  | none => if pos then (1, 0) else (0, 1)

/-- The entry found for a token after a whole record added `occ` occurrences
on the positive (if `pos`) or negative side. -/
def afterTrain (pos : Bool) (occ : Nat) (o : Option (Nat × Nat)) : Option (Nat × Nat) :=
  match o with
  | some v => some (if pos then (v.1 + occ, v.2) else (v.1, v.2 + occ))
  | none => if occ = 0 then none else some (if pos then (occ, 0) else (0, occ))

/-- Whether one ground-truth line is counted by `evaluatePredictions`: it has
at least 2 fields and its ID is a key of the prediction table. -/
def matchedOf (preds : PredictionTable) (line : List Nat) : Bool :=
  if (parseCSVLine line false).length < 2 then false
  else (ptFind preds ((parseCSVLine line false).getD 1 [])).isSome

/-! ### Claims about `DSString::substring` and `parseCSVLine`'s flag -/

/-- C2: `substring(start, count)` returns an empty string whenever `start` is
out of range (`start < 0` or `start ≥ size`) or `count ≤ 0`; when `start` is
in range and `start + count` exceeds the size it returns exactly the bytes
from `start` to the end; otherwise it returns the `count` bytes beginning at
`start`.  Being a total function, it covers every `start`/`count`
combination without an error. -/
theorem substring_spec (s : DSString) (start count : Int) :
    ((start < 0 ∨ start ≥ s.size ∨ count ≤ 0) → s.substring start count = ⟨[]⟩) ∧
    (0 ≤ start → start < s.size → 0 < count → s.size < start + count →
      (s.substring start count).data = s.data.drop start.toNat) ∧
    (0 ≤ start → start < s.size → 0 < count → start + count ≤ s.size →
      (s.substring start count).data = (s.data.drop start.toNat).take count.toNat) := by
  refine ⟨?_, ?_, ?_⟩
  · intro h
    simp only [DSString.substring, if_pos h]
  · intro h0 h1 h2 h3
    have hcond : ¬(start < 0 ∨ start ≥ s.size ∨ count ≤ 0) := by
      push_neg; exact ⟨by omega, h1, h2⟩
    simp only [DSString.substring, if_neg hcond, gt_iff_lt, if_pos h3]
    apply List.take_of_length_le
    simp only [List.length_drop]
    simp only [DSString.size] at h1 ⊢
    omega
  · intro h0 h1 h2 h3
    have hcond : ¬(start < 0 ∨ start ≥ s.size ∨ count ≤ 0) := by
      push_neg; exact ⟨by omega, h1, h2⟩
    have hfit : ¬(start + count > s.size) := by omega
    simp only [DSString.substring, if_neg hcond, gt_iff_lt, if_neg hfit]

/-- Witness for C2 at concrete inputs: an overlong count truncates, an
out-of-range start yields the empty string. -/
theorem substring_spec_witness :
    ((DSString.mk (bytesOf "hello")).substring 1 99).data = (bytesOf "hello").drop 1 ∧
    (DSString.mk (bytesOf "hello")).substring (-1) 2 = ⟨[]⟩ :=
  ⟨(substring_spec ⟨bytesOf "hello"⟩ 1 99).2.1 (by decide) (by decide) (by decide) (by decide),
   (substring_spec ⟨bytesOf "hello"⟩ (-1) 2).1 (Or.inl (by decide))⟩

/-- C10: the field list returned by `parseCSVLine` does not depend on the
`hasSentiment` flag: the parameter is accepted but never consulted. -/
theorem parseCSVLine_flag_independent (line : List Nat) :
    parseCSVLine line true = parseCSVLine line false := rfl

/-! ### Claim C1: the sentiment score and the prediction rule -/

theorem calculateSentimentScore_foldl (ws : WordStats) (tokens : List (List Nat))
    (init : Int) :
    tokens.foldl (fun score token =>
        match wsFind ws token with
        | some p => score + ((p.1 : Int) - (p.2 : Int))
        | none => score) init
      = init + (tokens.map (tokenScore ws)).sum := by
  induction tokens generalizing init with
  | nil => simp
  | cons t ts ih =>
    rw [List.foldl_cons, ih]
    simp only [List.map_cons, List.sum_cons]
    cases h : wsFind ws t <;> simp only [tokenScore, h] <;> ring

/-- C1: the sentiment score is the sum, over the tokens, of
(positiveCount − negativeCount) for tokens that are keys of the map and 0 for
absent tokens; and the label `predict` stores and writes for a record is 4
exactly when the score is strictly positive, 0 otherwise (a score of 0 gives
0, i.e. NEGATIVE). -/
theorem calculateSentimentScore_predict_spec (ws : WordStats) :
    (∀ tokens, calculateSentimentScore ws tokens = (tokens.map (tokenScore ws)).sum) ∧
    (∀ score : Int, (0 < score → predictedSentiment score = 4) ∧
      (score ≤ 0 → predictedSentiment score = 0)) ∧
    predictedSentiment 0 = 0 ∧
    (∀ line id lab, predictRecord ws line = some (id, lab) →
      lab = predictedSentiment (calculateSentimentScore ws
        (tokenizeTweet ((parseCSVLine line false).getD 4 [])))) := by
  refine ⟨?_, ?_, rfl, ?_⟩
  · intro tokens
    have h := calculateSentimentScore_foldl ws tokens 0
    simpa [calculateSentimentScore] using h
  · intro score
    constructor
    · intro h; simp [predictedSentiment, h]
    · intro h; simp [predictedSentiment]; omega
  · intro line id lab h
    by_cases hlen : (parseCSVLine line false).length < 5
    · simp [predictRecord, hlen] at h
    · simp [predictRecord, hlen] at h
      simp only [List.getD_eq_getElem?_getD]
      exact h.2.symm

/-! ### Claims C3 and C4: ordering of `DSString` -/

theorem stringCompare_antisymm (s t : List Nat) :
    stringCompare s t = -stringCompare t s := by
  induction s generalizing t with
  | nil => cases t <;> simp [stringCompare, headByte]
  | cons a as ih =>
    cases t with
    | nil => simp [stringCompare, headByte]
    | cons b bs =>
      simp only [stringCompare]
      split_ifs <;> first
        | exact ih bs
        | omega

theorem stringCompare_eq_zero_iff (s t : List Nat) (hs : 0 ∉ s) (ht : 0 ∉ t) :
    stringCompare s t = 0 ↔ s = t := by
  induction s generalizing t with
  | nil =>
    cases t with
    | nil => simp [stringCompare, headByte]
    | cons b bs =>
      have hb : b ≠ 0 := fun h => ht (h ▸ List.mem_cons_self b bs)
      simp only [stringCompare, headByte]
      constructor
      · intro h; exact absurd (by omega : b = 0) hb
      · intro h; exact absurd h (by simp)
  | cons a as ih =>
    have ha : a ≠ 0 := fun h => hs (h ▸ List.mem_cons_self a as)
    have has : 0 ∉ as := fun m => hs (List.mem_cons_of_mem a m)
    cases t with
    | nil =>
      simp only [stringCompare, headByte]
      constructor
      · intro h; exact absurd (by omega : a = 0) ha
      · intro h; exact absurd h (by simp)
    | cons b bs =>
      have hb : b ≠ 0 := fun h => ht (h ▸ List.mem_cons_self b bs)
      have hbs : 0 ∉ bs := fun m => ht (List.mem_cons_of_mem b m)
      simp only [stringCompare]
      rw [if_pos ⟨ha, hb⟩]
      by_cases hab : a = b
      · rw [if_pos hab, ih bs has hbs]
        subst hab
        simp
      · rw [if_neg hab]
        constructor
        · intro h; exact absurd (by omega : a = b) hab
        · intro h; injection h with h1 _; exact absurd h1 hab

theorem stringCompare_neg_iff (s t : List Nat) (hs : 0 ∉ s) (ht : 0 ∉ t) :
    stringCompare s t < 0 ↔ lexLt s t = true := by
  induction s generalizing t with
  | nil =>
    cases t with
    | nil => simp [stringCompare, headByte, lexLt]
    | cons b bs =>
      have hb : b ≠ 0 := fun h => ht (h ▸ List.mem_cons_self b bs)
      simp [stringCompare, headByte, lexLt]
      omega
  | cons a as ih =>
    have ha : a ≠ 0 := fun h => hs (h ▸ List.mem_cons_self a as)
    have has : 0 ∉ as := fun m => hs (List.mem_cons_of_mem a m)
    cases t with
    | nil =>
      simp [stringCompare, headByte, lexLt]
    | cons b bs =>
      have hb : b ≠ 0 := fun h => ht (h ▸ List.mem_cons_self b bs)
      have hbs : 0 ∉ bs := fun m => ht (List.mem_cons_of_mem b m)
      simp only [stringCompare]
      rw [if_pos ⟨ha, hb⟩]
      by_cases hab : a = b
      · rw [if_pos hab]
        subst hab
        simp only [lexLt, lt_irrefl, if_false, if_pos rfl]
        exact ih bs has hbs
      · rw [if_neg hab]
        simp [lexLt, hab]

theorem lexLt_append (l r : List Nat) (hr : r ≠ []) : lexLt l (l ++ r) = true := by
  induction l with
  | nil => cases r with
    | nil => exact absurd rfl hr
    | cons c cs => simp [lexLt]
  | cons a as ih => simp [lexLt, ih]

/-- C3: `operator<` and `operator>` are byte-wise lexicographic comparison
(for strings built through the class API, which hold no interior null byte);
in particular when `a` is a proper prefix of `b`, `a < b` and `b > a`. -/
theorem DSString_lt_gt_lexicographic (a b : DSString) (ha : a.wf) (hb : b.wf) :
    (a.lt b = lexLt a.data b.data) ∧
    (a.gt b = lexLt b.data a.data) ∧
    (∀ r, r ≠ [] → b.data = a.data ++ r → a.lt b = true ∧ b.gt a = true) := by
  have hlt : a.lt b = lexLt a.data b.data := by
    rw [Bool.eq_iff_iff]
    simp only [DSString.lt, decide_eq_true_eq]
    exact stringCompare_neg_iff a.data b.data ha.1 hb.1
  have hgt : b.gt a = lexLt a.data b.data := by
    rw [Bool.eq_iff_iff]
    simp only [DSString.gt, decide_eq_true_eq, gt_iff_lt]
    rw [stringCompare_antisymm b.data a.data]
    constructor
    · intro h
      exact (stringCompare_neg_iff a.data b.data ha.1 hb.1).mp (by omega)
    · intro h
      have := (stringCompare_neg_iff a.data b.data ha.1 hb.1).mpr h
      omega
  refine ⟨hlt, ?_, ?_⟩
  · rw [Bool.eq_iff_iff]
    simp only [DSString.gt, decide_eq_true_eq, gt_iff_lt]
    rw [stringCompare_antisymm a.data b.data]
    constructor
    · intro h
      exact (stringCompare_neg_iff b.data a.data hb.1 ha.1).mp (by omega)
    · intro h
      have := (stringCompare_neg_iff b.data a.data hb.1 ha.1).mpr h
      omega
  · intro r hr hpre
    have hl : lexLt a.data b.data = true := by
      rw [hpre]; exact lexLt_append a.data r hr
    exact ⟨by rw [hlt, hl], by rw [hgt, hl]⟩

/-- Witness for C3: "ab" is a proper prefix of "abc", so "ab" < "abc" and
"abc" > "ab". -/
theorem DSString_lt_gt_lexicographic_witness :
    (DSString.mk (bytesOf "ab")).lt ⟨bytesOf "abc"⟩ = true ∧
    (DSString.mk (bytesOf "abc")).gt ⟨bytesOf "ab"⟩ = true :=
  (DSString_lt_gt_lexicographic ⟨bytesOf "ab"⟩ ⟨bytesOf "abc"⟩ (by decide) (by decide)).2.2
    (bytesOf "c") (by decide) (by decide)

theorem DSString_beq_eq_decide (a b : DSString) :
    a.beq b = decide (a.data = b.data) := by
  by_cases hd : a.data = b.data
  · simp [DSString.beq, hd]
  · simp [DSString.beq, hd]

/-- C4: for all strings (built through the class API) exactly one of
`a == b`, `a < b`, `a > b` holds. -/
theorem DSString_trichotomy (a b : DSString) (ha : a.wf) (hb : b.wf) :
    (a.beq b = true ∧ a.lt b = false ∧ a.gt b = false) ∨
    (a.beq b = false ∧ a.lt b = true ∧ a.gt b = false) ∨
    (a.beq b = false ∧ a.lt b = false ∧ a.gt b = true) := by
  have hz := stringCompare_eq_zero_iff a.data b.data ha.1 hb.1
  rcases lt_trichotomy (stringCompare a.data b.data) 0 with h | h | h
  · refine Or.inr (Or.inl ⟨?_, ?_, ?_⟩)
    · rw [DSString_beq_eq_decide]
      simp only [decide_eq_false_iff_not]
      intro he; rw [← hz] at he; omega
    · simp [DSString.lt, h]
    · simp [DSString.gt]; omega
  · refine Or.inl ⟨?_, ?_, ?_⟩
    · rw [DSString_beq_eq_decide]
      simp [hz.mp h]
    · simp [DSString.lt]; omega
    · simp [DSString.gt]; omega
  · refine Or.inr (Or.inr ⟨?_, ?_, ?_⟩)
    · rw [DSString_beq_eq_decide]
      simp only [decide_eq_false_iff_not]
      intro he; rw [← hz] at he; omega
    · simp [DSString.lt]; omega
    · simp [DSString.gt]; omega

/-- Witness for C4 at two concrete strings. -/
theorem DSString_trichotomy_witness :
    ((DSString.mk (bytesOf "cat")).beq ⟨bytesOf "dog"⟩ = true ∧
      (DSString.mk (bytesOf "cat")).lt ⟨bytesOf "dog"⟩ = false ∧
      (DSString.mk (bytesOf "cat")).gt ⟨bytesOf "dog"⟩ = false) ∨
    ((DSString.mk (bytesOf "cat")).beq ⟨bytesOf "dog"⟩ = false ∧
      (DSString.mk (bytesOf "cat")).lt ⟨bytesOf "dog"⟩ = true ∧
      (DSString.mk (bytesOf "cat")).gt ⟨bytesOf "dog"⟩ = false) ∨
    ((DSString.mk (bytesOf "cat")).beq ⟨bytesOf "dog"⟩ = false ∧
      (DSString.mk (bytesOf "cat")).lt ⟨bytesOf "dog"⟩ = false ∧
      (DSString.mk (bytesOf "cat")).gt ⟨bytesOf "dog"⟩ = true) :=
  DSString_trichotomy ⟨bytesOf "cat"⟩ ⟨bytesOf "dog"⟩ (by decide) (by decide)

/-! ### Claim C5: CSV line parsing -/

theorem parseCSVLoop_length (input : List Nat) :
    ∀ fields cur inQ, fields.length + 1 ≤ (parseCSVLoop input fields cur inQ).length := by
  induction input with
  | nil => intro fields cur inQ; simp [parseCSVLoop]
  | cons c rest ih =>
    intro fields cur inQ
    simp only [parseCSVLoop]
    split_ifs with h1 h2
    · exact ih fields cur (!inQ)
    · have h := ih (fields ++ [cur]) [] inQ
      simp only [List.length_append, List.length_cons, List.length_nil] at h
      omega
    · exact ih fields (cur ++ [c]) inQ

theorem parseCSVLoop_no_quote (input : List Nat) :
    ∀ fields cur inQ, (∀ f ∈ fields, 34 ∉ f) → 34 ∉ cur →
      ∀ f ∈ parseCSVLoop input fields cur inQ, 34 ∉ f := by
  induction input with
  | nil =>
    intro fields cur inQ hfs hcur f hf
    simp only [parseCSVLoop, List.mem_append, List.mem_singleton] at hf
    rcases hf with hf | rfl
    · exact hfs f hf
    · exact hcur
  | cons c rest ih =>
    intro fields cur inQ hfs hcur f hf
    simp only [parseCSVLoop] at hf
    split_ifs at hf with h1 h2
    · exact ih fields cur (!inQ) hfs hcur f hf
    · refine ih (fields ++ [cur]) [] inQ ?_ (by simp) f hf
      intro g hg
      simp only [List.mem_append, List.mem_singleton] at hg
      rcases hg with hg | rfl
      · exact hfs g hg
      · exact hcur
    · refine ih fields (cur ++ [c]) inQ hfs ?_ f hf
      intro hm
      simp only [List.mem_append, List.mem_singleton] at hm
      rcases hm with hm | rfl
      · exact hcur hm
      · exact h1 rfl

/-- C5: `parseCSVLine` never errors (it is total), always emits at least the
final field (even when empty), never lets a double-quote byte through to any
output field, and parses the quoted six-field example line into its six
unquoted fields, the last being `I love it`. -/
theorem parseCSVLine_spec :
    (∀ line b, 1 ≤ (parseCSVLine line b).length) ∧
    (∀ line b f, f ∈ parseCSVLine line b → 34 ∉ f) ∧
    parseCSVLine (bytesOf "\"4\",\"1468\",\"Mon\",\"q\",\"user\",\"I love it\"") true =
      [bytesOf "4", bytesOf "1468", bytesOf "Mon", bytesOf "q", bytesOf "user",
       bytesOf "I love it"] := by
  refine ⟨?_, ?_, by decide⟩
  · intro line b
    have h := parseCSVLoop_length line [] [] false
    simpa [parseCSVLine] using h
  · intro line b f hf
    exact parseCSVLoop_no_quote line [] [] false (by simp) (by simp) f hf

/-- Witness for C5: the last-field guarantee and the quote-stripping
guarantee applied at concrete lines. -/
theorem parseCSVLine_spec_witness :
    1 ≤ (parseCSVLine (bytesOf "a,b") false).length ∧ 34 ∉ bytesOf "4" :=
  ⟨parseCSVLine_spec.1 (bytesOf "a,b") false,
   parseCSVLine_spec.2.1 (bytesOf "\"4\"") true (bytesOf "4") (by decide)⟩

/-! ### Claim C6: tokenization -/

theorem tokenizeLoop_append (input : List Nat) :
    ∀ cur toks, tokenizeLoop input cur toks = toks ++ tokenizeLoop input cur [] := by
  induction input with
  | nil =>
    intro cur toks
    simp only [tokenizeLoop]
    split_ifs <;> simp
  | cons c rest ih =>
    intro cur toks
    simp only [tokenizeLoop]
    split_ifs with h1 h2
    · rw [ih [] (toks ++ [cur]), ih [] ([] ++ [cur])]
      simp
    · exact ih cur toks
    · exact ih (cur ++ [c]) toks

theorem tokenizeLoop_spec (n : Nat) :
    ∀ input : List Nat, input.length ≤ n →
      (tokenizeLoop input [] [] = specTokens input) ∧
      (∀ cur, cur ≠ [] → tokenizeLoop input cur [] =
        (cur ++ input.takeWhile (fun b => !isDelimiter b)) ::
          specTokens (input.dropWhile (fun b => !isDelimiter b))) := by
  induction n with
  | zero =>
    intro input hlen
    have : input = [] := List.length_eq_zero.mp (Nat.le_zero.mp hlen)
    subst this
    constructor
    · simp [tokenizeLoop, specTokens]
    · intro cur hcur
      simp [tokenizeLoop, specTokens, List.length_pos, hcur]
  | succ n ih =>
    intro input hlen
    cases input with
    | nil =>
      constructor
      · simp [tokenizeLoop, specTokens]
      · intro cur hcur
        simp [tokenizeLoop, specTokens, List.length_pos, hcur]
    | cons c rest =>
      have hrest : rest.length ≤ n := by
        simp only [List.length_cons] at hlen; omega
      constructor
      · by_cases hc : isDelimiter c
        · rw [specTokens, if_pos hc]
          simp only [tokenizeLoop, if_pos hc, List.length_nil, gt_iff_lt,
            lt_self_iff_false, if_false]
          exact (ih rest hrest).1
        · rw [specTokens, if_neg hc]
          simp only [tokenizeLoop, if_neg hc, List.nil_append]
          rw [(ih rest hrest).2 [c] (by simp)]
          simp
      · intro cur hcur
        have hpos : 0 < cur.length := List.length_pos.mpr hcur
        by_cases hc : isDelimiter c
        · simp only [tokenizeLoop, if_pos hc, gt_iff_lt, if_pos hpos, List.nil_append]
          rw [tokenizeLoop_append rest, (ih rest hrest).1]
          have ht : (c :: rest).takeWhile (fun b => !isDelimiter b) = [] := by
            simp [List.takeWhile_cons, hc]
          have hd : (c :: rest).dropWhile (fun b => !isDelimiter b) = c :: rest := by
            simp [List.dropWhile_cons, hc]
          rw [ht, hd, specTokens, if_pos hc]
          simp
        · simp only [tokenizeLoop, if_neg hc]
          rw [(ih rest hrest).2 (cur ++ [c]) (by simp)]
          have ht : (c :: rest).takeWhile (fun b => !isDelimiter b) =
              c :: rest.takeWhile (fun b => !isDelimiter b) := by
            simp [List.takeWhile_cons, hc]
          have hd : (c :: rest).dropWhile (fun b => !isDelimiter b) =
              rest.dropWhile (fun b => !isDelimiter b) := by
            simp [List.dropWhile_cons, hc]
          rw [ht, hd]
          simp

theorem specTokens_ne_nil (l : List Nat) : ∀ t ∈ specTokens l, t ≠ [] := by
  induction l using specTokens.induct with
  | case1 => simp [specTokens]
  | case2 c rest hc ih =>
    rw [specTokens]; rw [if_pos hc]
    exact ih
  | case3 c rest hc ih =>
    rw [specTokens]; rw [if_neg hc]
    intro t ht
    rcases List.mem_cons.mp ht with rfl | h
    · simp
    · exact ih t h

/-- Every delimiter byte is unchanged by lowercasing (none is an uppercase
letter). -/
theorem lowerByte_delim : ∀ c ∈ delimiters, lowerByte c = c := by decide

theorem specTokens_all_delim (l : List Nat) (h : ∀ c ∈ l, isDelimiter c = true) :
    specTokens l = [] := by
  induction l using specTokens.induct with
  | case1 => simp [specTokens]
  | case2 c rest hc ih =>
    rw [specTokens, if_pos hc]
    exact ih (fun d hd => h d (List.mem_cons_of_mem c hd))
  | case3 c rest hc ih =>
    exact absurd (h c (List.mem_cons_self c rest)) (by simpa using hc)

/-- C6: `tokenizeTweet` lowercases the whole field and then emits exactly the
maximal non-delimiter runs, in order, including a run terminated by end of
input; no zero-length token is ever emitted; `"Hello, World!!"` tokenizes to
`["hello", "world"]` and a field of delimiters only tokenizes to `[]`. -/
theorem tokenizeTweet_spec :
    (∀ text, tokenizeTweet text = specTokens (text.map lowerByte)) ∧
    (∀ text t, t ∈ tokenizeTweet text → t ≠ []) ∧
    tokenizeTweet (bytesOf "Hello, World!!") = [bytesOf "hello", bytesOf "world"] ∧
    (∀ text, (∀ c ∈ text, isDelimiter c = true) → tokenizeTweet text = []) := by
  have hmain : ∀ text, tokenizeTweet text = specTokens (text.map lowerByte) := by
    intro text
    exact (tokenizeLoop_spec (text.map lowerByte).length (text.map lowerByte) le_rfl).1
  refine ⟨hmain, ?_, by decide, ?_⟩
  · intro text t ht
    rw [hmain] at ht
    exact specTokens_ne_nil (text.map lowerByte) t ht
  · intro text hd
    rw [hmain]
    apply specTokens_all_delim
    intro c hc
    rcases List.mem_map.mp hc with ⟨d, hd', rfl⟩
    have hdel := hd d hd'
    rw [lowerByte_delim d (by simpa [isDelimiter] using hdel)]
    exact hdel

/-- Witness for C6: the no-empty-token guarantee and the all-delimiter
guarantee applied at concrete fields. -/
theorem tokenizeTweet_spec_witness :
    (bytesOf "hello" ≠ []) ∧ tokenizeTweet (bytesOf " ,.! ") = [] :=
  ⟨tokenizeTweet_spec.2.1 (bytesOf "Hello, World!!") (bytesOf "hello") (by decide),
   tokenizeTweet_spec.2.2.2 (bytesOf " ,.! ") (by decide)⟩

/-! ### Claim C7: the training update -/

theorem wsFind_wsBump_self (pos : Bool) (ws : WordStats) (t : List Nat) :
    wsFind (wsBump pos ws t) t = some (bumpPair pos (wsFind ws t)) := by
  induction ws with
  | nil => simp [wsBump, wsFind, bumpPair]
  | cons kv rest ih =>
    obtain ⟨k, v⟩ := kv
    by_cases hk : k = t
    · subst hk; simp [wsBump, wsFind, bumpPair]
    · simp [wsBump, wsFind, hk, ih]

theorem wsFind_wsBump_ne (pos : Bool) (ws : WordStats) (t u : List Nat) (h : u ≠ t) :
    wsFind (wsBump pos ws t) u = wsFind ws u := by
  induction ws with
  | nil =>
    have hne : ¬t = u := fun hh => h hh.symm
    simp [wsBump, wsFind, hne]
  | cons kv rest ih =>
    obtain ⟨k, v⟩ := kv
    by_cases hk : k = t
    · subst hk
      have hne : ¬k = u := fun hh => h hh.symm
      simp [wsBump, wsFind, hne]
    · simp [wsBump, wsFind, hk, ih]

theorem afterTrain_zero (pos : Bool) (o : Option (Nat × Nat)) :
    afterTrain pos 0 o = o := by
  cases o <;> cases pos <;> simp [afterTrain]

theorem foldl_trainTokenStep (pos : Bool) (ts : List (List Nat)) :
    ∀ (ws : WordStats) (t : List Nat),
      wsFind (ts.foldl (trainTokenStep pos) ws) t =
        afterTrain pos (if 1 < t.length then ts.count t else 0) (wsFind ws t) := by
  induction ts with
  | nil =>
    intro ws t
    simp [afterTrain_zero]
  | cons u ts ih =>
    intro ws t
    rw [List.foldl_cons, ih]
    by_cases htu : t = u
    · subst htu
      by_cases hlen : 1 < t.length
      · have hstep : trainTokenStep pos ws t = wsBump pos ws t := by
          unfold trainTokenStep
          rw [if_neg (by omega)]
        rw [hstep, wsFind_wsBump_self]
        have hcount : (t :: ts).count t = ts.count t + 1 := by simp
        rw [hcount, if_pos hlen, if_pos hlen]
        cases ho : wsFind ws t with
        | none => cases pos <;> simp [bumpPair, afterTrain, Prod.ext_iff] <;> omega
        | some v => cases pos <;> simp [bumpPair, afterTrain, Prod.ext_iff] <;> omega
      · have hstep : trainTokenStep pos ws t = ws := by
          unfold trainTokenStep
          rw [if_pos (by omega)]
        rw [hstep, if_neg hlen, if_neg hlen]
    · have hbeq : (u == t) = false := by
        simp only [beq_eq_false_iff_ne, ne_eq]
        exact fun hh => htu hh.symm
      have hcount : (u :: ts).count t = ts.count t := by
        simp [List.count_cons, hbeq]
      rw [hcount]
      by_cases hu : u.length ≤ 1
      · have hstep : trainTokenStep pos ws u = ws := by
          unfold trainTokenStep
          rw [if_pos hu]
        rw [hstep]
      · have hstep : trainTokenStep pos ws u = wsBump pos ws u := by
          unfold trainTokenStep
          rw [if_neg hu]
        rw [hstep, wsFind_wsBump_ne pos ws u t htu]

/-- C7: on a well-formed training record (≥ 6 fields), `train` adds, for each
token of the record's text field with length > 1, one occurrence to that
token's positive count when the label field's first byte is `'4'` and to its
negative count otherwise (an absent entry starts from (0,0)); tokens of
length ≤ 1 change nothing; an empty or non-`'4'` label degrades to NEGATIVE
without an error. -/
theorem train_record_spec (ws : WordStats) (fields : List (List Nat))
    (h : 6 ≤ fields.length) :
    (∀ t, wsFind (processTrainRecord ws fields) t =
        afterTrain (labelIsPositive (fields.getD 0 []))
          (if 1 < t.length then (tokenizeTweet (fields.getD 5 [])).count t else 0)
          (wsFind ws t)) ∧
    (∀ t, t.length ≤ 1 → wsFind (processTrainRecord ws fields) t = wsFind ws t) ∧
    (∀ f, labelIsPositive f = true ↔ headByte f = 52) ∧
    labelIsPositive [] = false := by
  have hmain : ∀ t, wsFind (processTrainRecord ws fields) t =
      afterTrain (labelIsPositive (fields.getD 0 []))
        (if 1 < t.length then (tokenizeTweet (fields.getD 5 [])).count t else 0)
        (wsFind ws t) := by
    intro t
    unfold processTrainRecord
    rw [if_neg (by omega)]
    exact foldl_trainTokenStep (labelIsPositive (fields.getD 0 []))
      (tokenizeTweet (fields.getD 5 [])) ws t
  refine ⟨hmain, ?_, ?_, by decide⟩
  · intro t ht
    rw [hmain t, if_neg (by omega), afterTrain_zero]
  · intro f
    simp [labelIsPositive]

/-- Witness for C7: training one positive record whose text contains "hi"
twice (and a short token, discarded) yields counts (2,0) for "hi". -/
theorem train_record_spec_witness :
    wsFind (processTrainRecord []
        [bytesOf "4", bytesOf "1", bytesOf "d", bytesOf "q", bytesOf "u",
         bytesOf "hi there a hi"]) (bytesOf "hi") = some (2, 0) := by
  rw [(train_record_spec []
        [bytesOf "4", bytesOf "1", bytesOf "d", bytesOf "q", bytesOf "u",
         bytesOf "hi there a hi"] (by decide)).1 (bytesOf "hi")]
  decide

/-! ### Claim C8: evaluation of predictions -/

theorem evalStep_mis (preds : PredictionTable) (st : EvalState) (line : List Nat) :
    (evalStep preds st line).mis = st.mis ++ (misOf preds line).toList := by
  simp only [evalStep, misOf]
  by_cases hlen : (parseCSVLine line false).length < 2
  · simp [hlen]
  · simp only [if_neg hlen]
    cases hfind : ptFind preds ((parseCSVLine line false).getD 1 []) with
    | none => simp
    | some p =>
      by_cases hp :
          p = (if headByte ((parseCSVLine line false).getD 0 []) = 52 then 4 else 0)
      · simp only [List.getD_eq_getElem?_getD] at hp
        simp [hp]
      · simp only [List.getD_eq_getElem?_getD] at hp
        simp [hp]

theorem evalStep_total (preds : PredictionTable) (st : EvalState) (line : List Nat) :
    (evalStep preds st line).total =
      st.total + (if matchedOf preds line then 1 else 0) := by
  simp only [evalStep, matchedOf]
  by_cases hlen : (parseCSVLine line false).length < 2
  · simp [hlen]
  · simp only [if_neg hlen]
    cases hfind : ptFind preds ((parseCSVLine line false).getD 1 []) with
    | none => simp
    | some p =>
      by_cases hp :
          p = (if headByte ((parseCSVLine line false).getD 0 []) = 52 then 4 else 0)
      · simp only [List.getD_eq_getElem?_getD] at hp
        simp [hp]
      · simp only [List.getD_eq_getElem?_getD] at hp
        simp [hp]

theorem foldl_evalStep_mis (preds : PredictionTable) (lines : List (List Nat)) :
    ∀ st, (lines.foldl (evalStep preds) st).mis =
      st.mis ++ lines.filterMap (misOf preds) := by
  induction lines with
  | nil => intro st; simp
  | cons line rest ih =>
    intro st
    rw [List.foldl_cons, ih, evalStep_mis, List.filterMap_cons]
    cases misOf preds line <;> simp

theorem foldl_evalStep_total (preds : PredictionTable) (lines : List (List Nat)) :
    ∀ st, (lines.foldl (evalStep preds) st).total =
      st.total + lines.countP (matchedOf preds) := by
  induction lines with
  | nil => intro st; simp
  | cons line rest ih =>
    intro st
    rw [List.foldl_cons, ih, evalStep_total, List.countP_cons]
    omega

/-- C8: a ground-truth record whose ID is not a key of the prediction table
leaves the evaluation state unchanged (skipped, not counted, no error); the
misclassification list is exactly the mismatched matched records in the
ground-truth encounter order; the total counts exactly the matched records;
and the accuracy is `correct / total`, defined as 0 with a warning (and no
crash) when the total is 0. -/
theorem evaluatePredictions_spec (preds : PredictionTable) (lines : List (List Nat)) :
    (∀ st line, ¬((parseCSVLine line false).length < 2) →
      ptFind preds ((parseCSVLine line false).getD 1 []) = none →
      evalStep preds st line = st) ∧
    ((evaluatePredictions preds lines).mis = lines.filterMap (misOf preds)) ∧
    ((evaluatePredictions preds lines).total = lines.countP (matchedOf preds)) ∧
    ((evaluatePredictions preds lines).total = 0 →
      accuracy (evaluatePredictions preds lines) = 0 ∧
      evalWarned (evaluatePredictions preds lines) = true) ∧
    (0 < (evaluatePredictions preds lines).total →
      accuracy (evaluatePredictions preds lines) =
        ((evaluatePredictions preds lines).correct : ℚ) /
          ((evaluatePredictions preds lines).total : ℚ) ∧
      evalWarned (evaluatePredictions preds lines) = false) := by
  refine ⟨?_, ?_, ?_, ?_, ?_⟩
  · intro st line hlen hfind
    simp only [evalStep, if_neg hlen, hfind]
  · have h := foldl_evalStep_mis preds lines ⟨0, 0, []⟩
    simpa [evaluatePredictions] using h
  · have h := foldl_evalStep_total preds lines ⟨0, 0, []⟩
    simpa [evaluatePredictions] using h
  · intro h0
    constructor
    · simp [accuracy, h0]
    · simp [evalWarned, h0]
  · intro hpos
    constructor
    · simp [accuracy, hpos]
    · simp [evalWarned]; omega

/-- Witness for C8: with no matched identifier the accuracy is 0 and the
warning fires. -/
theorem evaluatePredictions_spec_witness :
    accuracy (evaluatePredictions [(bytesOf "9", 4)] [bytesOf "4,7"]) = 0 ∧
    evalWarned (evaluatePredictions [(bytesOf "9", 4)] [bytesOf "4,7"]) = true :=
  (evaluatePredictions_spec [(bytesOf "9", 4)] [bytesOf "4,7"]).2.2.2.1 (by decide)

/-! ### Claim C9: deep copy of `DSString` -/

theorem readBuf_writeByte_ne (H : Heap) (r r' i v : Nat) (hne : r ≠ r') :
    readBuf (writeByte H r i v) r' = readBuf H r' := by
  simp [readBuf, writeByte, List.getD_eq_getElem?_getD, List.getElem?_set_ne hne]

theorem readBuf_append_lt (H : Heap) (x : List Nat) (r : Nat) (hr : r < H.length) :
    readBuf (H ++ [x]) r = readBuf H r := by
  unfold readBuf
  exact List.getD_append _ _ _ _ hr

theorem readBuf_append_self (H : Heap) (x : List Nat) :
    readBuf (H ++ [x]) H.length = x := by
  unfold readBuf
  rw [List.getD_append_right _ _ _ _ (le_refl H.length)]
  simp

/-- C9: a copy made by the copy constructor reads equal to its source
(`operator==` holds), and afterwards writing any byte of the copy through
`operator[]` leaves the source unchanged and vice versa (the copy owns a
fresh buffer); likewise copy assignment makes the target read equal to the
source and leaves the two objects' buffers independent under `operator[]`
writes. -/
theorem deep_copy_spec (h : Heap) (s : Nat) (hs : s < h.length) :
    (dsEqHeap (copyConstruct h s).1 (copyConstruct h s).2 s = true) ∧
    (readBuf (copyConstruct h s).1 (copyConstruct h s).2 = readBuf h s) ∧
    (∀ i v, readBuf (writeByte (copyConstruct h s).1 (copyConstruct h s).2 i v) s =
      readBuf h s) ∧
    (∀ i v, readBuf (writeByte (copyConstruct h s).1 s i v) (copyConstruct h s).2 =
      readBuf h s) ∧
    (∀ dst, dst < h.length → dst ≠ s →
      readBuf (assignFrom h dst s) dst = readBuf h s ∧
      readBuf (assignFrom h dst s) s = readBuf h s ∧
      (∀ i v, readBuf (writeByte (assignFrom h dst s) dst i v) s = readBuf h s) ∧
      (∀ i v, readBuf (writeByte (assignFrom h dst s) s i v) dst = readBuf h s)) := by
  have hcopy : readBuf (copyConstruct h s).1 (copyConstruct h s).2 = readBuf h s := by
    simp only [copyConstruct]
    exact readBuf_append_self h (readBuf h s)
  have hsrc : readBuf (copyConstruct h s).1 s = readBuf h s := by
    simp only [copyConstruct]
    exact readBuf_append_lt h (readBuf h s) s hs
  have hne : (copyConstruct h s).2 ≠ s := by
    simp only [copyConstruct]
    omega
  refine ⟨?_, hcopy, ?_, ?_, ?_⟩
  · simp [dsEqHeap, hcopy, hsrc]
  · intro i v
    rw [readBuf_writeByte_ne _ _ _ _ _ hne, hsrc]
  · intro i v
    rw [readBuf_writeByte_ne _ _ _ _ _ (fun hh => hne hh.symm), hcopy]
  · intro dst hdst hds
    have hset_dst : readBuf (assignFrom h dst s) dst = readBuf h s := by
      simp only [assignFrom, if_neg hds]
      simp [readBuf, List.getD_eq_getElem?_getD, List.getElem?_set_self
        (by simpa using hdst : dst < h.length)]
    have hset_src : readBuf (assignFrom h dst s) s = readBuf h s := by
      simp only [assignFrom, if_neg hds]
      simp [readBuf, List.getD_eq_getElem?_getD, List.getElem?_set_ne hds]
    refine ⟨hset_dst, hset_src, ?_, ?_⟩
    · intro i v
      rw [readBuf_writeByte_ne _ _ _ _ _ hds, hset_src]
    · intro i v
      rw [readBuf_writeByte_ne _ _ _ _ _ (fun hh => hds hh.symm), hset_dst]

/-- Witness for C9: copying the one-buffer heap holding "hi" and then
overwriting byte 0 of the copy leaves the original reading "hi". -/
theorem deep_copy_spec_witness :
    readBuf (writeByte (copyConstruct [bytesOf "hi"] 0).1
      (copyConstruct [bytesOf "hi"] 0).2 0 120) 0 = readBuf [bytesOf "hi"] 0 :=
  (deep_copy_spec [bytesOf "hi"] 0 (by decide)).2.2.1 0 120

/-- Witness for C1: a zero score yields label 0, and the score of a concrete
token list over a concrete map evaluates through the theorem. -/
theorem calculateSentimentScore_predict_spec_witness :
    predictedSentiment 0 = 0 ∧
    calculateSentimentScore [(bytesOf "good", (3, 1))] [bytesOf "good", bytesOf "zzz"] =
      ([bytesOf "good", bytesOf "zzz"].map
        (tokenScore [(bytesOf "good", (3, 1))])).sum :=
  ⟨((calculateSentimentScore_predict_spec []).2.1 0).2 (by decide),
   (calculateSentimentScore_predict_spec [(bytesOf "good", (3, 1))]).1
     [bytesOf "good", bytesOf "zzz"]⟩
